import Mathlib

/-!
Verification of the blockchain messaging protocol core
(`src/core/blockchain.py`, `src/engine/engine.py`).

The SHA-256 digest is modelled as an abstract function parameter `H` from
block contents (resp. byte strings) to hex strings: the Python code hashes
the deterministic JSON serialization of the block's content fields, and the
serialization composed with SHA-256 is a function of exactly those fields.
Collision-freedom of the digest, where a statement needs it, appears as an
explicit hypothesis on `H`.

Byte strings (Python `bytes`) are modelled as `List UInt8`.
-/

namespace BMP

abbrev Bytes := List UInt8

/-! ## Ledger: `src/core/blockchain.py` -/

/-- The shapes of `data` dictionaries the ledger code constructs:
the genesis block's `{"message": ..., "type": "system"}` and a mined
block's `{"messages": [...]}` wrapping the drained pending payloads.
Payloads themselves are opaque to the ledger (type parameter `α`). -/
inductive BlockData (α : Type) where
  | system (message : String)
  | messages (msgs : List α)
deriving DecidableEq

/-- The five fields of a block that feed `Block.calculate_hash`
(everything except the stored `hash` itself). -/
structure BlockContent (α : Type) where
  index : Nat
  timestamp : Nat
  data : BlockData α
  previous_hash : String
  nonce : Nat
deriving DecidableEq

/-- `Block` from `src/core/blockchain.py`: content fields plus the stored
`hash` string. -/
structure Block (α : Type) where
  index : Nat
  timestamp : Nat
  data : BlockData α
  previous_hash : String
  nonce : Nat
  hash : String
deriving DecidableEq

def Block.content {α} (b : Block α) : BlockContent α :=
  ⟨b.index, b.timestamp, b.data, b.previous_hash, b.nonce⟩

/-- `Block.calculate_hash`: SHA-256 of the canonical serialization of the
content fields, modelled as the abstract digest `H` applied to the content. -/
def Block.calculate_hash {α} (H : BlockContent α → String) (b : Block α) : String :=
  H b.content

/-- `Block.__post_init__`: a block is constructed with its `hash` computed
from the content fields (the dataclass passes `hash=""` so the hash is
always calculated at construction). -/
def Block.create {α} (H : BlockContent α → String) (index timestamp : Nat)
    (data : BlockData α) (previous_hash : String) (nonce : Nat) : Block α :=
  let b : Block α := ⟨index, timestamp, data, previous_hash, nonce, ""⟩
  { b with hash := Block.calculate_hash H b }

/-- The proof-of-work target `"0" * difficulty`. -/
def powTarget (difficulty : Nat) : String :=
  String.mk (List.replicate difficulty '0')

/-- Python's `str.startswith`, computed on the underlying character list. -/
def strStartsWith (s p : String) : Bool :=
  p.data.isPrefixOf s.data

/-- `Block.mine`: the unbounded `while not hash.startswith(target)` search,
made total with an explicit iteration bound `fuel`; when the bound runs out
the block is returned as-is (the source would still be looping there, so
theorems below are stated for every `fuel`). Each step increments `nonce`
and recomputes `hash`, as in the source. -/
def Block.mine {α} (H : BlockContent α → String) (difficulty : Nat) :
    Nat → Block α → Block α
  | 0, b => b
  | fuel + 1, b =>
    if strStartsWith b.hash (powTarget difficulty) then b
    else
      let b' : Block α := { b with nonce := b.nonce + 1 }
      Block.mine H difficulty fuel { b' with hash := Block.calculate_hash H b' }

/-- Dictionary representation of a block (`Block.to_dict` /
`Block.from_dict`): the same six fields, with `hash` carried as data. -/
structure BlockDict (α : Type) where
  index : Nat
  timestamp : Nat
  data : BlockData α
  previous_hash : String
  nonce : Nat
  hash : String
deriving DecidableEq

def Block.to_dict {α} (b : Block α) : BlockDict α :=
  ⟨b.index, b.timestamp, b.data, b.previous_hash, b.nonce, b.hash⟩

/-- `Block.from_dict`: constructs the block (which computes a hash) and then
overwrites `hash` with the stored value — the stored hash is kept verbatim. -/
def Block.from_dict {α} (H : BlockContent α → String) (d : BlockDict α) : Block α :=
  let b := Block.create H d.index d.timestamp d.data d.previous_hash d.nonce
  { b with hash := d.hash }

/-- `Blockchain` state: the chain, the pending payload buffer, and the
difficulty. -/
structure Blockchain (α : Type) where
  chain : List (Block α)
  pending_data : List α
  difficulty : Nat
deriving DecidableEq

/-- `Blockchain._create_genesis_block` as used by `__init__`: a block at
index 0 with `previous_hash = "0" * 64`, mined at the chain's difficulty.
`ts` models `time.time()` and `fuel` bounds the mining loop. -/
def Blockchain.init {α} (H : BlockContent α → String)
    (difficulty fuel ts : Nat) : Blockchain α :=
  let genesis := Block.mine H difficulty fuel
    (Block.create H 0 ts (.system "Genesis Block") (String.mk (List.replicate 64 '0')) 0)
  ⟨[genesis], [], difficulty⟩

/-- `Blockchain.add_data`: append a payload to the pending buffer. -/
def Blockchain.add_data {α} (bc : Blockchain α) (d : α) : Blockchain α :=
  { bc with pending_data := bc.pending_data ++ [d] }

/-- `Blockchain.mine_pending`: `None` when pending is empty; otherwise build
a block at index `len(chain)` wrapping all pending payloads, mine it, append
it, and clear pending.  The chain is non-empty in every reachable state, so
`latest_block` is modelled by `getLast?` with a vacuous default. -/
def Blockchain.mine_pending {α} (H : BlockContent α → String)
    (fuel ts : Nat) (bc : Blockchain α) : Option (Block α) × Blockchain α :=
  match bc.pending_data with
  | [] => (none, bc)
  | _ :: _ =>
    let prevHash := ((bc.chain.getLast?).map Block.hash).getD ""
    let new_block := Block.mine H bc.difficulty fuel
      (Block.create H bc.chain.length ts (.messages bc.pending_data) prevHash 0)
    (some new_block, { bc with chain := bc.chain ++ [new_block], pending_data := [] })

/-- The three checks of one iteration of `Blockchain.is_chain_valid`, on the
pair `(chain[i-1], chain[i])`: recomputed hash matches, previous-hash link
holds, proof-of-work target met. -/
def blockOk {α} (H : BlockContent α → String) (difficulty : Nat)
    (previous current : Block α) : Bool :=
  (current.hash == Block.calculate_hash H current)
    && (current.previous_hash == previous.hash)
    && strStartsWith current.hash (powTarget difficulty)

/-- The loop of `is_chain_valid` over `i in range(1, len(chain))`: every
adjacent pair must pass `blockOk`; `&&` mirrors the early `return False`. -/
def validFrom {α} (H : BlockContent α → String) (difficulty : Nat) :
    List (Block α) → Bool
  | [] => true
  | [_] => true
  | p :: c :: rest => blockOk H difficulty p c && validFrom H difficulty (c :: rest)

/-- `Blockchain.is_chain_valid`. -/
def Blockchain.is_chain_valid {α} (H : BlockContent α → String)
    (bc : Blockchain α) : Bool :=
  validFrom H bc.difficulty bc.chain

/-- Dictionary representation of a whole ledger (`Blockchain.to_dict`). -/
structure BlockchainDict (α : Type) where
  difficulty : Nat
  chain : List (BlockDict α)
  pending_data : List α
deriving DecidableEq

def Blockchain.to_dict {α} (bc : Blockchain α) : BlockchainDict α :=
  ⟨bc.difficulty, bc.chain.map Block.to_dict, bc.pending_data⟩

/-- `Blockchain.from_dict`: bypasses `__init__` (`cls.__new__`), so no
genesis is created and nothing is mined; every block is rebuilt by
`Block.from_dict` with its stored hash. -/
def Blockchain.from_dict {α} (H : BlockContent α → String)
    (d : BlockchainDict α) : Blockchain α :=
  ⟨(d.chain.map (Block.from_dict H)), d.pending_data, d.difficulty⟩

/-- Ledger states reachable by construction, `add_data` and `mine_pending`
(the operations named by the positional-index invariant). -/
inductive Reachable {α : Type} (H : BlockContent α → String) : Blockchain α → Prop where
  | init (difficulty fuel ts : Nat) : Reachable H (Blockchain.init H difficulty fuel ts)
  | add_data {bc : Blockchain α} (d : α) :
      Reachable H bc → Reachable H (bc.add_data d)
  | mine_pending {bc : Blockchain α} (fuel ts : Nat) :
      Reachable H bc → Reachable H (Blockchain.mine_pending H fuel ts bc).2

/-! ## Merkle root: `calculate_merkle_root` -/

/-- One pass of the inner `for i in range(0, len(hashes), 2)` loop:
concatenate adjacent hash strings and hash each pair with `Hs` (SHA-256 of
the encoded concatenation). Called only on even-length levels. -/
def merkleCombine (Hs : String → String) : List String → List String
  | [] => []
  | [a] => [Hs a]
  | a :: b :: rest => Hs (a ++ b) :: merkleCombine Hs rest

/-- The `while len(hashes) > 1` loop of `calculate_merkle_root`: duplicate
the last hash when the level is odd, then combine pairwise.  `fuel` bounds
the iterations; each pass at least halves a level of length ≥ 2, so a fuel
of the initial length always suffices. -/
def merkleLoop (Hs : String → String) : Nat → List String → String
  | 0, hashes => hashes.headD ""
  | fuel + 1, hashes =>
    if hashes.length > 1 then
      let padded :=
        if hashes.length % 2 ≠ 0 then hashes ++ [hashes.getLastD ""] else hashes
      merkleLoop Hs fuel (merkleCombine Hs padded)
    else hashes.headD ""

/-- `calculate_merkle_root`: `Hb` models `sha256(data).hexdigest()` on raw
bytes, `Hs` models `sha256(combined.encode()).hexdigest()` on concatenated
hex strings. Empty input yields the digest of the empty byte string. -/
def calculate_merkle_root (Hb : Bytes → String) (Hs : String → String)
    (data_list : List Bytes) : String :=
  if data_list.isEmpty then Hb []
  else
    let hashes := data_list.map Hb
    merkleLoop Hs hashes.length hashes

/-! ## Transmission engine: `src/engine/engine.py`

The crypto primitives (`verify_signature`, `derive_shared_secret`,
`encrypt_message`, `decrypt_message` from `src/core/crypto.py`), the
message constructors (`src/core/message.py`), the peer record
(`src/network/peer.py`) and the chunk reassembler (`src/engine/chunker.py`)
are collaborators whose sources are not among the provided files; they
enter the embedding as abstract function parameters and spec-shaped
records. Key, secret and private-key material are abstract types
`K`, `E`, `P`, `S`. Engine methods are pure state transformers returning
the new engine state together with the trace of externally visible
effects (ledger appends, dispatches, observer invocations). -/

/-- Message types of the protocol (`MessageType` in `src/core/message.py`,
not among the provided files; the five variants are fixed by the spec). -/
inductive MessageType where
  | TEXT
  | ACK
  | STREAM_START
  | STREAM_CHUNK
  | STREAM_END
deriving DecidableEq

/-- Modelled from the spec: chunk metadata `{stream_id, sequence, total}`
carried by stream messages (`src/core/message.py` is not provided). -/
structure ChunkInfo where
  stream_id : String
  sequence : Nat
  total : Nat
deriving DecidableEq

/-- Modelled from the spec: the message record of §3 (`MessagePayload` in
`src/core/message.py`, not provided). `metadata_name` is the only metadata
entry the engine reads (`metadata.get("name")`). -/
structure MessagePayload where
  id : String
  type : MessageType
  sender : String
  recipient : String
  timestamp : Nat
  content : Bytes
  nonce : Option Bytes
  signature : Bytes
  metadata_name : Option String
  chunk_info : Option ChunkInfo
deriving DecidableEq

/-- Modelled from the spec: the peer directory's peer record
`Peer{id, public_key, encryption_key, address, port}` (§6;
`src/network/peer.py` is not provided). Missing keys are `none`. -/
structure Peer (K E : Type) where
  id : String
  public_key : Option K
  encryption_key : Option E
  address : String
  port : Nat

/-- Modelled from the spec: the identity/wallet collaborator (§6;
`src/core/crypto.py` is not provided): address, display name, private
encryption key, and the signing operation. -/
structure Wallet (P : Type) where
  address : String
  name : String
  encPriv : P
  sign : Bytes → Bytes

/-- The fields of the dictionaries the engine appends to the ledger:
`{"type", "id", "sender", "timestamp"}` plus `"recipient"` for outbound
`type="message"` entries. No entry carries message content. -/
structure LedgerEntry where
  type : String
  id : String
  sender : String
  recipient : Option String
  timestamp : Nat
deriving DecidableEq

/-- `ReceivedMessage` from `src/engine/engine.py`. -/
structure ReceivedMessage where
  id : String
  sender : String
  sender_name : Option String
  content : String
  timestamp : Nat
  verified : Bool
deriving DecidableEq

/-- `Chunk` consumed by the reassembler (`src/engine/chunker.py`). -/
structure Chunk where
  stream_id : String
  sequence : Nat
  total : Nat
  data : Bytes
deriving DecidableEq

/-- Modelled from the spec: the chunk reassembler's state — in-flight
partial streams keyed by `stream_id` (§4.2; `src/engine/chunker.py` is not
provided). Each stream holds the `(sequence, data)` pairs received so far. -/
structure ChunkReassembler where
  streams : List (String × List (Nat × Bytes))
deriving DecidableEq

/-- Modelled from the spec: `ChunkReassembler.add_chunk` (§4.2;
`src/engine/chunker.py` is not provided). Duplicates are tolerated; the
concatenated payload, ordered by sequence, is returned exactly on the call
that completes coverage of `[0, total)`, and the completed stream is
discarded. -/
def ChunkReassembler.add_chunk (r : ChunkReassembler) (c : Chunk) :
    Option Bytes × ChunkReassembler :=
  let stored := ((r.streams.lookup c.stream_id)).getD []
  let stored' :=
    if stored.any (fun p => p.1 == c.sequence) then stored
    else (c.sequence, c.data) :: stored
  let others := r.streams.filter (fun p => !(p.1 == c.stream_id))
  if (List.range c.total).all (fun i => stored'.any (fun p => p.1 == i)) then
    (some ((List.range c.total).map
        (fun i => (((stored'.find? (fun p => p.1 == i)).map Prod.snd)).getD [])).flatten,
      ⟨others⟩)
  else
    (none, ⟨(c.stream_id, stored') :: others⟩)

/-- Externally visible effects of one engine operation, in program order. -/
inductive EngineEvent where
  | ledgerAdd (entry : LedgerEntry)
  | dispatched (message : MessagePayload) (recipient_id : String)
  | observerCalled (i : Nat) (received : ReceivedMessage)
  | observerRaised (i : Nat)
  | sentAck (original_message_id sender recipient to_peer : String)
deriving DecidableEq

/-- `TransmissionEngine` state: wallet, ledger, registered observer
callbacks (a callback is modelled by whether it raises on a given received
message — its return value is ignored by the engine), the per-peer
shared-secret cache, and the chunk reassembler. -/
structure TransmissionEngine (P S : Type) where
  wallet : Wallet P
  blockchain : Blockchain LedgerEntry
  callbacks : List (ReceivedMessage → Bool)
  shared_secrets : List (String × S)
  reassembler : ChunkReassembler

/-- `TransmissionEngine.on_message`: register a callback. -/
def TransmissionEngine.on_message {P S} (eng : TransmissionEngine P S)
    (cb : ReceivedMessage → Bool) : TransmissionEngine P S :=
  { eng with callbacks := eng.callbacks ++ [cb] }

/-- `TransmissionEngine._get_shared_secret`: `None` when the peer has no
encryption key; otherwise the cached secret, deriving and caching it first
if absent. -/
def get_shared_secret {P S K E : Type} (derive : P → E → S)
    (eng : TransmissionEngine P S) (peer : Peer K E) :
    Option S × TransmissionEngine P S :=
  match peer.encryption_key with
  | none => (none, eng)
  | some k =>
    match eng.shared_secrets.lookup peer.id with
    | some s => (some s, eng)
    | none =>
      let s := derive eng.wallet.encPriv k
      (some s, { eng with shared_secrets := (peer.id, s) :: eng.shared_secrets })

/-- The decrypt-if-needed section of `_handle_text_message`: when the
message carries a nonce and the peer has an encryption key, fetch the
shared secret and attempt decryption; `none` means the decryption attempt
failed (the `except` branch that drops the message). -/
def resolveContent {P S K E : Type} (derive : P → E → S)
    (decrypt : Bytes → S → Bytes → Option Bytes)
    (eng : TransmissionEngine P S) (message : MessagePayload) (peer : Peer K E) :
    Option Bytes × TransmissionEngine P S :=
  match message.nonce, peer.encryption_key with
  | some n, some _ =>
    match get_shared_secret derive eng peer with
    | (some s, eng') =>
      match decrypt message.content s n with
      | some c => (some c, eng')
      | none => (none, eng')
    | (none, eng') => (some message.content, eng')
  | _, _ => (some message.content, eng)

/-- The observer-notification loop of `_handle_text_message`, from index
`i`: every callback is invoked (event `observerCalled`); one that raises
additionally logs (`observerRaised`) and the loop continues — the
`try`/`except` around `await callback(received)`. -/
def notifyFrom (i : Nat) (callbacks : List (ReceivedMessage → Bool))
    (received : ReceivedMessage) : List EngineEvent :=
  match callbacks with
  | [] => []
  | cb :: rest =>
    EngineEvent.observerCalled i received ::
      ((if cb received then [EngineEvent.observerRaised i] else []) ++
        notifyFrom (i + 1) rest received)

/-- `TransmissionEngine._handle_text_message`: resolve (maybe decrypt) the
content, decode it (`decode` models `bytes.decode()`, `none` on
`UnicodeDecodeError`), then build the `ReceivedMessage`, append the
`received` ledger entry, notify every observer, and send the ACK
(`create_ack_message(sender=wallet.address, recipient=message.sender,
original_message_id=message.id)` dispatched to `peer.id`). -/
def handle_text_message {P S K E : Type} (derive : P → E → S)
    (decrypt : Bytes → S → Bytes → Option Bytes) (decode : Bytes → Option String)
    (eng : TransmissionEngine P S) (message : MessagePayload) (peer : Peer K E)
    (verified : Bool) : TransmissionEngine P S × List EngineEvent :=
  match resolveContent derive decrypt eng message peer with
  | (none, eng1) => (eng1, [])
  | (some content, eng1) =>
    match decode content with
    | none => (eng1, [])
    | some text =>
      let received : ReceivedMessage :=
        ⟨message.id, message.sender, message.metadata_name, text,
          message.timestamp, verified⟩
      let entry : LedgerEntry :=
        ⟨"received", message.id, message.sender, none, message.timestamp⟩
      let eng2 := { eng1 with blockchain := eng1.blockchain.add_data entry }
      (eng2,
        EngineEvent.ledgerAdd entry ::
          (notifyFrom 0 eng2.callbacks received ++
            [EngineEvent.sentAck message.id eng2.wallet.address message.sender peer.id]))

/-- `TransmissionEngine._handle_stream_message`: ignore messages without
`chunk_info`; otherwise feed the content to the reassembler (completion is
only logged in the source, so it produces no event). -/
def handle_stream_message {P S : Type} (eng : TransmissionEngine P S)
    (message : MessagePayload) : TransmissionEngine P S × List EngineEvent :=
  match message.chunk_info with
  | none => (eng, [])
  | some ci =>
    let chunk : Chunk := ⟨ci.stream_id, ci.sequence, ci.total, message.content⟩
    let r := eng.reassembler.add_chunk chunk
    ({ eng with reassembler := r.2 }, [])

/-- `TransmissionEngine._handle_incoming`: drop (no effect) when the origin
peer's public key is unknown or signature verification fails; otherwise
dispatch on the message type (`ACK` is logged only). `verify` models
`verify_signature` and `signable` models
`MessagePayload.get_signable_content`. -/
def handle_incoming {P S K E : Type} (verify : Bytes → Bytes → K → Bool)
    (signable : MessagePayload → Bytes) (derive : P → E → S)
    (decrypt : Bytes → S → Bytes → Option Bytes) (decode : Bytes → Option String)
    (eng : TransmissionEngine P S) (message : MessagePayload) (peer : Peer K E) :
    TransmissionEngine P S × List EngineEvent :=
  match peer.public_key with
  | none => (eng, [])
  | some pk =>
    let verified := verify (signable message) message.signature pk
    if verified then
      match message.type with
      | .TEXT => handle_text_message derive decrypt decode eng message peer verified
      | .ACK => (eng, [])
      | .STREAM_START => handle_stream_message eng message
      | .STREAM_CHUNK => handle_stream_message eng message
      | .STREAM_END => handle_stream_message eng message
    else (eng, [])

/-- The `if encrypt and peer.encryption_key:` section of `send_text`:
encrypt with the cached/derived shared secret when requested and possible,
yielding the optional nonce, the outgoing content, and the engine state
(whose secret cache may have grown). -/
def outgoingEncryption {P S K E : Type} (derive : P → E → S)
    (encrypt_message : Bytes → S → Bytes × Bytes)
    (eng : TransmissionEngine P S) (peer : Peer K E) (content : Bytes)
    (encrypt : Bool) : Option Bytes × Bytes × TransmissionEngine P S :=
  if encrypt then
    match peer.encryption_key with
    | some _ =>
      match get_shared_secret derive eng peer with
      | (some s, eng') =>
        let nc := encrypt_message content s
        (some nc.1, nc.2, eng')
      | (none, eng') => (none, content, eng')
    | none => (none, content, eng)
  else (none, content, eng)

/-- `TransmissionEngine.send_text`: fail (return `false`, no effect) when
the recipient is unknown; otherwise encrypt when requested and possible,
build and sign the message (`msgId` and `ts` model the generated id and
`time.time()`), append the `message` ledger entry, then dispatch.
`send_result` models the transport's `send_message` outcome, which the
engine returns unchanged, and `encode` models UTF-8 encoding
(`text.encode()`). -/
def send_text {P S K E : Type} (get_peer : String → Option (Peer K E))
    (derive : P → E → S) (encrypt_message : Bytes → S → Bytes × Bytes)
    (signable : MessagePayload → Bytes) (encode : String → Bytes)
    (send_result : Bool)
    (eng : TransmissionEngine P S) (recipient_id : String) (text : String)
    (encrypt : Bool) (msgId : String) (ts : Nat) :
    Bool × TransmissionEngine P S × List EngineEvent :=
  match get_peer recipient_id with
  | none => (false, eng, [])
  | some peer =>
    match outgoingEncryption derive encrypt_message eng peer (encode text) encrypt with
    | (nonceOpt, content, eng1) =>
      let message0 : MessagePayload :=
        ⟨msgId, .TEXT, eng.wallet.address, recipient_id, ts, content, nonceOpt, [],
          some eng.wallet.name, none⟩
      let message := { message0 with signature := eng.wallet.sign (signable message0) }
      let entry : LedgerEntry :=
        ⟨"message", message.id, message.sender, some message.recipient, message.timestamp⟩
      let eng2 := { eng1 with blockchain := eng1.blockchain.add_data entry }
      (send_result, eng2,
        [EngineEvent.ledgerAdd entry, EngineEvent.dispatched message recipient_id])

/-! ## Concrete instances

Executable instantiations of the abstract digest, crypto and transport
parameters, used to evaluate the definitions at concrete inputs. Payloads
are instantiated at `Nat`, key/secret material at `Nat`. -/

def natListTag : List Nat → String :=
  fun l => l.foldl (fun acc n => acc ++ toString n ++ ",") ""

def dataTag : BlockData Nat → String
  | .system s => "s:" ++ s
  | .messages l => "m:" ++ natListTag l

/-- A concrete stand-in digest over `Nat`-payload block contents: a readable
encoding of the five content fields, separated by `|`. -/
def Hdemo (c : BlockContent Nat) : String :=
  dataTag c.data ++ "|" ++ toString c.index ++ "|" ++ toString c.timestamp
    ++ "|" ++ c.previous_hash ++ "|" ++ toString c.nonce

/-- A fresh ledger at difficulty 0 (the target `""` is met at once, so any
fuel mines). -/
def demo0 : Blockchain Nat := Blockchain.init Hdemo 0 5 0

/-- `demo0` after adding payload `7` and mining: a two-block chain. -/
def demo2 : Blockchain Nat := (Blockchain.mine_pending Hdemo 5 1 (demo0.add_data 7)).2

/-- The mined (non-genesis) block of `demo2`. -/
def demoBlock1 : Block Nat :=
  demo2.chain.getLastD (Block.create Hdemo 0 0 (.system "") "" 0)

/-- `demoBlock1` with its stored `data` replaced (stored hash untouched). -/
def demoTampered : Block Nat := { demoBlock1 with data := .messages [] }

/-- `demo2` with the genesis block's stored `data` replaced (stored hash
untouched). -/
def demo2mut : Blockchain Nat :=
  match demo2.chain with
  | [] => demo2
  | g :: rest => { demo2 with chain := { g with data := BlockData.messages [99] } :: rest }

def HbDemo : Bytes → String := fun l => "L" ++ toString l.length

def HsDemo : String → String := fun s => "N(" ++ s ++ ")"

def walletDemo : Wallet Nat := ⟨"alice-addr", "Alice", 7, fun _ => [1]⟩

def engDemo : TransmissionEngine Nat Nat :=
  ⟨walletDemo, ⟨[], [], 0⟩, [], [], ⟨[]⟩⟩

def engDemoCached : TransmissionEngine Nat Nat :=
  { engDemo with shared_secrets := [("peer-1", 5)] }

/-- Two registered observers, the first of which raises. -/
def engDemoObs : TransmissionEngine Nat Nat :=
  { engDemo with callbacks := [fun _ => true, fun _ => false] }

def peerNoKey : Peer Nat Nat := ⟨"peer-1", none, none, "127.0.0.1", 1⟩

def peerFull : Peer Nat Nat := ⟨"peer-1", some 3, some 4, "127.0.0.1", 1⟩

def msgDemo : MessagePayload :=
  ⟨"m1", .TEXT, "bob-addr", "alice-addr", 2, [10], none, [9], some "Bob", none⟩

def msgDemoEnc : MessagePayload := { msgDemo with nonce := some [0] }

def verifyFalse : Bytes → Bytes → Nat → Bool := fun _ _ _ => false

def signableDemo : MessagePayload → Bytes := fun m => m.content

def deriveDemo : Nat → Nat → Nat := fun a b => a + b

def decryptNone : Bytes → Nat → Bytes → Option Bytes := fun _ _ _ => none

def decryptId : Bytes → Nat → Bytes → Option Bytes := fun c _ _ => some c

def decodeHi : Bytes → Option String := fun _ => some "hi"

def encodeDemo : String → Bytes := fun _ => [104]

def encryptDemo : Bytes → Nat → Bytes × Bytes := fun c _ => ([0], c)

def getPeerNone : String → Option (Peer Nat Nat) := fun _ => none

def getPeerFull : String → Option (Peer Nat Nat) := fun _ => some peerFull

/-! ## Helper lemmas -/

lemma mine_preserves {α} (H : BlockContent α → String) (difficulty fuel : Nat)
    (b : Block α) :
    (Block.mine H difficulty fuel b).index = b.index
      ∧ (Block.mine H difficulty fuel b).data = b.data
      ∧ (Block.mine H difficulty fuel b).timestamp = b.timestamp := by
  induction fuel generalizing b with
  | zero => exact ⟨rfl, rfl, rfl⟩
  | succ f ih =>
    simp only [Block.mine]
    split
    · exact ⟨rfl, rfl, rfl⟩
    · simpa using ih _

lemma foldl_add_data {α} (pl : List α) (bc : Blockchain α) :
    pl.foldl Blockchain.add_data bc
      = ⟨bc.chain, bc.pending_data ++ pl, bc.difficulty⟩ := by
  induction pl generalizing bc with
  | nil => simp
  | cons a t ih => simp [Blockchain.add_data, ih]

lemma mine_pending_cons {α} (H : BlockContent α → String) (fuel ts : Nat)
    (chain : List (Block α)) (x : α) (xs : List α) (diff : Nat) :
    Blockchain.mine_pending H fuel ts ⟨chain, x :: xs, diff⟩
      = (some (Block.mine H diff fuel
            (Block.create H chain.length ts (.messages (x :: xs))
              (((chain.getLast?).map Block.hash).getD "") 0)),
          ⟨chain ++ [Block.mine H diff fuel
            (Block.create H chain.length ts (.messages (x :: xs))
              (((chain.getLast?).map Block.hash).getD "") 0)], [], diff⟩) := rfl

lemma validFrom_iff_chain' {α} (H : BlockContent α → String) (d : Nat) :
    ∀ l : List (Block α),
      validFrom H d l = true ↔ l.Chain' (fun p c => blockOk H d p c = true)
  | [] => by simp [validFrom]
  | [b] => by simp [validFrom]
  | a :: b :: t => by
    rw [validFrom, List.chain'_cons, Bool.and_eq_true, validFrom_iff_chain' H d (b :: t)]

end BMP

namespace BMP

/-! ## Claim theorems -/

/-- C2 (amended): `calculate_merkle_root` of the empty list is the digest
of the empty byte string, and of a one-element list `[x]` it is the digest
of `x` itself — the `while` loop never runs for a single leaf, so no
duplicate-and-combine step is applied. -/
theorem merkle_root_nil_and_singleton (Hb : Bytes → String) (Hs : String → String)
    (x : Bytes) :
    calculate_merkle_root Hb Hs [] = Hb []
      ∧ calculate_merkle_root Hb Hs [x] = Hb x := by
  constructor
  · rfl
  · simp [calculate_merkle_root, merkleLoop]

/-- C2 counterexample: for a concrete digest and the single leaf `[]`, the
Merkle root is the leaf hash itself and differs from the hash of the leaf
hash combined with itself once, refuting the claim's single-element case. -/
theorem merkle_root_singleton_counterexample :
    calculate_merkle_root HbDemo HsDemo [[]] = HbDemo []
      ∧ calculate_merkle_root HbDemo HsDemo [[]] ≠ HsDemo (HbDemo [] ++ HbDemo []) := by
  constructor
  · rfl
  · decide

/-- C3: `mine_pending` on an empty pending buffer returns `none` and leaves
the whole state unchanged; after adding the payloads `pl` (n ≥ 1) the next
`mine_pending` returns a block, appends exactly that block to the chain,
wraps the previously pending payloads followed by all of `pl` in order in
its `data`, and empties the pending buffer. -/
theorem mine_pending_empty_and_batch {α} (H : BlockContent α → String)
    (bc : Blockchain α) (fuel ts : Nat) :
    (bc.pending_data = [] → Blockchain.mine_pending H fuel ts bc = (none, bc))
      ∧ (∀ pl : List α, pl ≠ [] →
          ∃ nb : Block α,
            Blockchain.mine_pending H fuel ts (pl.foldl Blockchain.add_data bc)
                = (some nb, ⟨bc.chain ++ [nb], [], bc.difficulty⟩)
              ∧ nb.data = BlockData.messages (bc.pending_data ++ pl)
              ∧ List.IsSuffix pl (bc.pending_data ++ pl)) := by
  constructor
  · intro h
    simp [Blockchain.mine_pending, h]
  · intro pl hpl
    rw [foldl_add_data]
    have hne : bc.pending_data ++ pl ≠ [] := by
      intro hc
      exact hpl (List.append_eq_nil.mp hc).2
    obtain ⟨x, xs, hxx⟩ := List.exists_cons_of_ne_nil hne
    rw [hxx, mine_pending_cons]
    refine ⟨_, rfl, ?_, ⟨bc.pending_data, hxx⟩⟩
    rw [(mine_preserves H bc.difficulty fuel _).2.1]
    simp [Block.create, hxx]

/-- C3 witness: on the concrete fresh ledger, mining with empty pending is
a no-op, and adding `[7]` then mining yields the batch block. -/
theorem mine_pending_empty_and_batch_witness :
    Blockchain.mine_pending Hdemo 5 1 demo0 = (none, demo0)
      ∧ ∃ nb : Block Nat,
          Blockchain.mine_pending Hdemo 5 1 ([7].foldl Blockchain.add_data demo0)
              = (some nb, ⟨demo0.chain ++ [nb], [], demo0.difficulty⟩)
            ∧ nb.data = BlockData.messages (demo0.pending_data ++ [7])
            ∧ List.IsSuffix [7] (demo0.pending_data ++ [7]) :=
  ⟨(mine_pending_empty_and_batch Hdemo demo0 5 1).1 (by decide),
    (mine_pending_empty_and_batch Hdemo demo0 5 1).2 [7] (by decide)⟩

/-- C9: deserializing the serialized document reproduces the ledger exactly
(difficulty, every block field, pending payloads), and on any document the
loaded blocks carry the stored hashes verbatim for every digest function —
nothing is recomputed or re-mined on load. -/
theorem ledger_round_trip {α} (H : BlockContent α → String) (bc : Blockchain α)
    (d : BlockchainDict α) :
    Blockchain.from_dict H (Blockchain.to_dict bc) = bc
      ∧ (Blockchain.from_dict H d).difficulty = d.difficulty
      ∧ (Blockchain.from_dict H d).chain.map Block.hash = d.chain.map BlockDict.hash
      ∧ (Blockchain.from_dict H d).pending_data = d.pending_data := by
  refine ⟨?_, rfl, ?_, rfl⟩
  · have hb : ∀ b : Block α, Block.from_dict H (Block.to_dict b) = b := fun b => rfl
    cases bc with
    | mk chain pending diff =>
      simp only [Blockchain.from_dict, Blockchain.to_dict, List.map_map]
      have hmap : List.map (Block.from_dict H ∘ Block.to_dict) chain
          = List.map id chain := List.map_congr_left fun a _ => hb a
      simp only [hmap, List.map_id]
  · simp only [Blockchain.from_dict, List.map_map]
    exact List.map_congr_left fun a _ => rfl

/-- C10: in every ledger state reachable by construction, `add_data` and
`mine_pending`, the block stored at position `i` has `index = i`. -/
theorem chain_indices_positional {α} (H : BlockContent α → String)
    (bc : Blockchain α) (hr : Reachable H bc) :
    ∀ i, (h : i < bc.chain.length) → (bc.chain.get ⟨i, h⟩).index = i := by
  induction hr with
  | init difficulty fuel ts =>
    intro i h
    have h1 : i < 1 := by simpa [Blockchain.init] using h
    have h0 : i = 0 := by omega
    subst h0
    simpa [Blockchain.init, List.get] using
      ((mine_preserves H difficulty fuel _).1.trans rfl)
  | add_data d hr ih =>
    intro i h
    exact ih i (by simpa [Blockchain.add_data] using h)
  | mine_pending fuel ts hr ih =>
    rename_i bc'
    intro i
    rcases hpd : bc'.pending_data with _ | ⟨x, xs⟩
    · have heq : (Blockchain.mine_pending H fuel ts bc').2 = bc' := by
        simp [Blockchain.mine_pending, hpd]
      rw [heq]
      exact ih i
    · have hch : (Blockchain.mine_pending H fuel ts bc').2.chain
          = bc'.chain ++ [Block.mine H bc'.difficulty fuel
              (Block.create H bc'.chain.length ts (.messages (x :: xs))
                (((bc'.chain.getLast?).map Block.hash).getD "") 0)] := by
        simp [Blockchain.mine_pending, hpd]
      rw [hch]
      intro h
      rw [List.get_eq_getElem]
      have hlen : i < bc'.chain.length + 1 := by simpa using h
      rcases Nat.lt_or_ge i bc'.chain.length with hlt | hge
      · rw [List.getElem_append_left hlt]
        have := ih i hlt
        rw [List.get_eq_getElem] at this
        exact this
      · have hi : i = bc'.chain.length := by omega
        subst hi
        rw [List.getElem_concat_length _ _ _ rfl]
        exact (mine_preserves H bc'.difficulty fuel _).1

/-- C10 witness: the two-block concrete ledger, reached by construction,
`add_data` and `mine_pending`, has the block with `index = 1` at position 1. -/
theorem chain_indices_positional_witness :
    (demo2.chain.get ⟨1, by decide⟩).index = 1 :=
  chain_indices_positional Hdemo demo2
    (Reachable.mine_pending 5 1 (Reachable.add_data 7 (Reachable.init 0 5 0)))
    1 (by decide)

/-- C1 (amended): in a chain that currently validates, replacing a
non-genesis block's (index `i ≥ 1`) stored `data` by data whose recomputed
digest differs from the old one (SHA-256 collision-freedom at these two
contents), or replacing its `previous_hash` by a different value, makes
`is_chain_valid` return `false`. The genesis block is excluded: the
validation loop starts at index 1 and never rechecks block 0's own hash or
proof-of-work. -/
theorem tamper_invalidates_nongenesis {α} (H : BlockContent α → String)
    (bc : Blockchain α) (i : Nat) (hlen : i < bc.chain.length) (hi : 1 ≤ i)
    (hvalid : bc.is_chain_valid H = true)
    (b b' : Block α) (hb : bc.chain.get ⟨i, hlen⟩ = b)
    (hmut : (∃ d', b' = { b with data := d' } ∧ H b'.content ≠ H b.content)
      ∨ (∃ p', b' = { b with previous_hash := p' } ∧ p' ≠ b.previous_hash)) :
    Blockchain.is_chain_valid H { bc with chain := bc.chain.set i b' } = false := by
  simp only [Blockchain.is_chain_valid] at hvalid ⊢
  cases hres : validFrom H bc.difficulty (bc.chain.set i b') with
  | false => rfl
  | true =>
    exfalso
    obtain ⟨j, rfl⟩ : ∃ j, i = j + 1 := ⟨i - 1, by omega⟩
    have hchain := (validFrom_iff_chain' H bc.difficulty _).mp hres
    have horig := (validFrom_iff_chain' H bc.difficulty _).mp hvalid
    rw [List.chain'_iff_get] at hchain horig
    have hlen1 : j < (bc.chain.set (j + 1) b').length - 1 := by
      simp only [List.length_set]; omega
    have hlen2 : j < bc.chain.length - 1 := by omega
    have hpair := hchain j hlen1
    have hpair0 := horig j hlen2
    have hjlen : j < bc.chain.length := by omega
    have hjset : j < (bc.chain.set (j + 1) b').length := by
      simp only [List.length_set]; omega
    have hj1set : j + 1 < (bc.chain.set (j + 1) b').length := by
      simp only [List.length_set]; omega
    have hsetj : (bc.chain.set (j + 1) b').get ⟨j, hjset⟩
        = bc.chain.get ⟨j, hjlen⟩ := by
      rw [List.get_eq_getElem, List.get_eq_getElem]
      exact List.getElem_set_ne (by omega) hjset
    have hsetj1 : (bc.chain.set (j + 1) b').get ⟨j + 1, hj1set⟩ = b' := by
      rw [List.get_eq_getElem]
      exact List.getElem_set_self hj1set
    rw [hsetj, hsetj1] at hpair
    rw [hb] at hpair0
    simp only [blockOk, Bool.and_eq_true, beq_iff_eq, Block.calculate_hash] at hpair hpair0
    rcases hmut with ⟨d', hb', hne⟩ | ⟨p', hb', hne⟩
    · subst hb'
      exact hne (hpair.1.1.symm.trans hpair0.1.1)
    · subst hb'
      exact hne (hpair.1.2.trans hpair0.1.2.symm)

/-- C1 witness: in the concrete two-block valid chain, replacing the mined
block's `data` (position 1) makes validation fail. -/
theorem tamper_invalidates_nongenesis_witness :
    demo2.is_chain_valid Hdemo = true
      ∧ Blockchain.is_chain_valid Hdemo
          { demo2 with chain := demo2.chain.set 1 demoTampered } = false :=
  ⟨by decide,
    tamper_invalidates_nongenesis Hdemo demo2 1 (by decide) (by decide) (by decide)
      demoBlock1 demoTampered (by decide)
      (Or.inl ⟨BlockData.messages [], by decide, by decide⟩)⟩

/-- C1 counterexample: mutating the genesis block's stored `data` after the
fact leaves `is_chain_valid` true — the claim's universal quantification
over all blocks, including index 0, fails on the code. -/
theorem genesis_tamper_undetected :
    demo2.is_chain_valid Hdemo = true
      ∧ demo2mut.is_chain_valid Hdemo = true
      ∧ demo2mut.chain.map Block.data ≠ demo2.chain.map Block.data := by
  decide

/-! ## Engine lemmas and claims -/

lemma get_shared_secret_fields {P S K E : Type} (derive : P → E → S)
    (eng : TransmissionEngine P S) (peer : Peer K E) :
    (get_shared_secret derive eng peer).2.wallet = eng.wallet
      ∧ (get_shared_secret derive eng peer).2.blockchain = eng.blockchain
      ∧ (get_shared_secret derive eng peer).2.callbacks = eng.callbacks := by
  unfold get_shared_secret
  cases peer.encryption_key with
  | none => exact ⟨rfl, rfl, rfl⟩
  | some k =>
    cases eng.shared_secrets.lookup peer.id with
    | none => exact ⟨rfl, rfl, rfl⟩
    | some s => exact ⟨rfl, rfl, rfl⟩

lemma resolveContent_fields {P S K E : Type} (derive : P → E → S)
    (decrypt : Bytes → S → Bytes → Option Bytes)
    (eng : TransmissionEngine P S) (message : MessagePayload) (peer : Peer K E) :
    (resolveContent derive decrypt eng message peer).2.wallet = eng.wallet
      ∧ (resolveContent derive decrypt eng message peer).2.blockchain = eng.blockchain
      ∧ (resolveContent derive decrypt eng message peer).2.callbacks = eng.callbacks := by
  unfold resolveContent
  cases message.nonce with
  | none => exact ⟨rfl, rfl, rfl⟩
  | some n =>
    cases peer.encryption_key with
    | none => exact ⟨rfl, rfl, rfl⟩
    | some k =>
      have h := get_shared_secret_fields derive eng peer
      rcases hgs : get_shared_secret derive eng peer with ⟨o, eng'⟩
      rw [hgs] at h
      rcases o with _ | s
      · simpa using h
      · rcases hd : decrypt message.content s n with _ | c
        · simpa [hd] using h
        · simpa [hd] using h

lemma outgoingEncryption_fields {P S K E : Type} (derive : P → E → S)
    (encrypt_message : Bytes → S → Bytes × Bytes)
    (eng : TransmissionEngine P S) (peer : Peer K E) (content : Bytes)
    (encrypt : Bool) :
    (outgoingEncryption derive encrypt_message eng peer content encrypt).2.2.wallet
        = eng.wallet
      ∧ (outgoingEncryption derive encrypt_message eng peer content encrypt).2.2.blockchain
        = eng.blockchain
      ∧ (outgoingEncryption derive encrypt_message eng peer content encrypt).2.2.callbacks
        = eng.callbacks := by
  unfold outgoingEncryption
  cases encrypt with
  | false => exact ⟨rfl, rfl, rfl⟩
  | true =>
    simp only [if_true]
    cases peer.encryption_key with
    | none => exact ⟨rfl, rfl, rfl⟩
    | some k =>
      have h := get_shared_secret_fields derive eng peer
      cases hgs : get_shared_secret derive eng peer with
      | mk o eng' =>
        rw [hgs] at h
        cases o with
        | none => exact h
        | some s => exact h

lemma notifyFrom_mem (rm : ReceivedMessage) :
    ∀ (cbs : List (ReceivedMessage → Bool)) (k j : Nat), j < cbs.length →
      EngineEvent.observerCalled (k + j) rm ∈ notifyFrom k cbs rm := by
  intro cbs
  induction cbs with
  | nil =>
    intro k j hj
    simp at hj
  | cons cb rest ih =>
    intro k j hj
    cases j with
    | zero => simp [notifyFrom]
    | succ j' =>
      have hmem := ih (k + 1) j' (by simpa using hj)
      have hadd : k + (j' + 1) = (k + 1) + j' := by omega
      rw [hadd]
      exact List.mem_cons_of_mem _ (List.mem_append_right _ hmem)

lemma getLast?_cons_append_singleton {γ : Type} (x y : γ) (A : List γ) :
    (x :: (A ++ [y])).getLast? = some y := by
  rw [← List.cons_append, List.getLast?_concat]

lemma dropLast_cons_append_singleton {γ : Type} (x y : γ) (A : List γ) :
    (x :: (A ++ [y])).dropLast = x :: A := by
  rw [← List.cons_append, List.dropLast_concat]

/-- C4: an inbound message whose origin peer's public signing key is
unknown, or whose signature fails verification, is dropped: the engine
state is unchanged and no effect (no observer call, no ledger append, no
dispatch) is produced; the handler is a total function, so no exception
crosses the engine boundary. -/
theorem drop_unverified {P S K E : Type} (verify : Bytes → Bytes → K → Bool)
    (signable : MessagePayload → Bytes) (derive : P → E → S)
    (decrypt : Bytes → S → Bytes → Option Bytes) (decode : Bytes → Option String)
    (eng : TransmissionEngine P S) (message : MessagePayload) (peer : Peer K E)
    (h : peer.public_key = none
      ∨ ∃ pk, peer.public_key = some pk
          ∧ verify (signable message) message.signature pk = false) :
    handle_incoming verify signable derive decrypt decode eng message peer
      = (eng, []) := by
  unfold handle_incoming
  rcases h with hnone | ⟨pk, hpk, hv⟩
  · rw [hnone]
  · rw [hpk]
    simp [hv]

/-- C4 witness: a message from a peer with no known public key is dropped
with no state change and no events. -/
theorem drop_unverified_witness :
    handle_incoming verifyFalse signableDemo deriveDemo decryptId decodeHi engDemo
        msgDemo peerNoKey = (engDemo, []) :=
  drop_unverified verifyFalse signableDemo deriveDemo decryptId decodeHi engDemo
    msgDemo peerNoKey (Or.inl rfl)

/-- C5: `send_text` returns `false` with no effect when the recipient is
unknown; when the recipient is known it records exactly one ledger entry
`{type="message", id, sender, recipient, timestamp}` (a record that carries
no content field), the ledger-append event precedes the dispatch event in
the trace, and the result — including the recorded entry — is the same for
both transport outcomes `send_result = true/false`: no rollback. -/
theorem send_text_contract {P S K E : Type} (get_peer : String → Option (Peer K E))
    (derive : P → E → S) (encrypt_message : Bytes → S → Bytes × Bytes)
    (signable : MessagePayload → Bytes) (encode : String → Bytes)
    (send_result : Bool) (eng : TransmissionEngine P S)
    (recipient_id text : String) (encrypt : Bool) (msgId : String) (ts : Nat) :
    (get_peer recipient_id = none →
        send_text get_peer derive encrypt_message signable encode send_result eng
            recipient_id text encrypt msgId ts = (false, eng, []))
      ∧ (∀ peer, get_peer recipient_id = some peer →
          ∃ (eng' : TransmissionEngine P S) (message : MessagePayload),
            send_text get_peer derive encrypt_message signable encode send_result eng
                recipient_id text encrypt msgId ts
              = (send_result, eng',
                  [EngineEvent.ledgerAdd
                      ⟨"message", msgId, eng.wallet.address, some recipient_id, ts⟩,
                    EngineEvent.dispatched message recipient_id])
            ∧ eng'.blockchain.pending_data
                = eng.blockchain.pending_data
                    ++ [⟨"message", msgId, eng.wallet.address, some recipient_id, ts⟩]
            ∧ eng'.blockchain.chain = eng.blockchain.chain
            ∧ message.id = msgId ∧ message.sender = eng.wallet.address
            ∧ message.recipient = recipient_id ∧ message.timestamp = ts) := by
  constructor
  · intro h
    unfold send_text
    rw [h]
  · intro peer hp
    have hfe := outgoingEncryption_fields derive encrypt_message eng peer (encode text) encrypt
    rcases hoe : outgoingEncryption derive encrypt_message eng peer (encode text) encrypt
      with ⟨no, oc, eng1⟩
    rw [hoe] at hfe
    unfold send_text
    simp only [hp]
    rw [hoe]
    have hb1 : eng1.blockchain = eng.blockchain := hfe.2.1
    refine ⟨_, _, rfl, ?_, ?_, rfl, rfl, rfl, rfl⟩
    · simp [Blockchain.add_data, hb1]
    · simp [Blockchain.add_data, hb1]

/-- C5 witness: unknown recipient fails with no effect; known recipient
with a failed dispatch (`send_result = false`) still records the entry. -/
theorem send_text_contract_witness :
    send_text getPeerNone deriveDemo encryptDemo signableDemo encodeDemo false engDemo
        "bob" "hi" true "m9" 3 = (false, engDemo, [])
      ∧ ∃ (eng' : TransmissionEngine Nat Nat) (message : MessagePayload),
          send_text getPeerFull deriveDemo encryptDemo signableDemo encodeDemo false
              engDemo "peer-1" "hi" true "m9" 3
            = (false, eng',
                [EngineEvent.ledgerAdd
                    ⟨"message", "m9", engDemo.wallet.address, some "peer-1", 3⟩,
                  EngineEvent.dispatched message "peer-1"])
          ∧ eng'.blockchain.pending_data
              = engDemo.blockchain.pending_data
                  ++ [⟨"message", "m9", engDemo.wallet.address, some "peer-1", 3⟩]
          ∧ eng'.blockchain.chain = engDemo.blockchain.chain
          ∧ message.id = "m9" ∧ message.sender = engDemo.wallet.address
          ∧ message.recipient = "peer-1" ∧ message.timestamp = 3 :=
  ⟨(send_text_contract getPeerNone deriveDemo encryptDemo signableDemo encodeDemo
      false engDemo "bob" "hi" true "m9" 3).1 rfl,
    (send_text_contract getPeerFull deriveDemo encryptDemo signableDemo encodeDemo
      false engDemo "peer-1" "hi" true "m9" 3).2 peerFull rfl⟩

/-- C6: a verified TEXT message whose decryption fails (the resolve step
yields nothing) or whose resolved content fails text decoding is dropped:
the handler returns with no events (so no observer invocation, no `received`
ledger event, no acknowledgment) and the ledger is unchanged. -/
theorem drop_undecodable_text {P S K E : Type} (derive : P → E → S)
    (decrypt : Bytes → S → Bytes → Option Bytes) (decode : Bytes → Option String)
    (eng : TransmissionEngine P S) (message : MessagePayload) (peer : Peer K E)
    (verified : Bool)
    (h : (resolveContent derive decrypt eng message peer).1 = none
      ∨ ∃ c, (resolveContent derive decrypt eng message peer).1 = some c
          ∧ decode c = none) :
    handle_text_message derive decrypt decode eng message peer verified
        = ((resolveContent derive decrypt eng message peer).2, [])
      ∧ ((resolveContent derive decrypt eng message peer).2).blockchain
        = eng.blockchain := by
  refine ⟨?_, (resolveContent_fields derive decrypt eng message peer).2.1⟩
  unfold handle_text_message
  rcases hrc : resolveContent derive decrypt eng message peer with ⟨o, eng1⟩
  rcases h with h0 | ⟨c, hc, hd⟩
  · rw [hrc] at h0
    have ho : o = none := h0
    subst ho
    rfl
  · rw [hrc] at hc
    have ho : o = some c := hc
    subst ho
    simp [hd]

/-- C6 witness: an encrypted message whose decryption fails is dropped with
no events and an unchanged ledger. -/
theorem drop_undecodable_text_witness :
    handle_text_message deriveDemo decryptNone decodeHi engDemo msgDemoEnc peerFull true
        = ((resolveContent deriveDemo decryptNone engDemo msgDemoEnc peerFull).2, [])
      ∧ ((resolveContent deriveDemo decryptNone engDemo msgDemoEnc peerFull).2).blockchain
        = engDemo.blockchain :=
  drop_undecodable_text deriveDemo decryptNone decodeHi engDemo msgDemoEnc peerFull true
    (Or.inl (by decide))

/-- C7: for a successfully resolved and decoded TEXT message, the event
trace ends with the acknowledgment, and every registered observer — with
arbitrary raise/no-raise behavior — is invoked strictly before it (its
invocation event lies in the trace with the last event removed): an
observer raising prevents neither the remaining observers nor the ACK. -/
theorem ack_after_observers {P S K E : Type} (derive : P → E → S)
    (decrypt : Bytes → S → Bytes → Option Bytes) (decode : Bytes → Option String)
    (eng : TransmissionEngine P S) (message : MessagePayload) (peer : Peer K E)
    (verified : Bool) (c : Bytes) (text : String)
    (hc : (resolveContent derive decrypt eng message peer).1 = some c)
    (ht : decode c = some text) :
    ∃ tr : List EngineEvent,
      (handle_text_message derive decrypt decode eng message peer verified).2 = tr
        ∧ tr.getLast? = some (EngineEvent.sentAck message.id eng.wallet.address
            message.sender peer.id)
        ∧ (∀ i, i < eng.callbacks.length →
            EngineEvent.observerCalled i
                ⟨message.id, message.sender, message.metadata_name, text,
                  message.timestamp, verified⟩ ∈ tr.dropLast) := by
  have hfields := resolveContent_fields derive decrypt eng message peer
  rcases hrc : resolveContent derive decrypt eng message peer with ⟨o, eng1⟩
  rw [hrc] at hfields
  have ho : o = some c := by
    rw [hrc] at hc
    exact hc
  subst ho
  unfold handle_text_message
  rw [hrc]
  simp only [ht]
  refine ⟨_, rfl, ?_, ?_⟩
  · rw [getLast?_cons_append_singleton]
    have hw : eng1.wallet = eng.wallet := hfields.1
    simp [hw]
  · intro i hi
    rw [dropLast_cons_append_singleton]
    have hcb : eng1.callbacks = eng.callbacks := hfields.2.2
    refine List.mem_cons_of_mem _ ?_
    simpa [Nat.zero_add] using notifyFrom_mem
      ⟨message.id, message.sender, message.metadata_name, text,
        message.timestamp, verified⟩ eng1.callbacks 0 i (by rw [hcb]; exact hi)

/-- C7 witness: with two observers, the first of which raises, both are
invoked before the acknowledgment, which is the last event. -/
theorem ack_after_observers_witness :
    ∃ tr : List EngineEvent,
      (handle_text_message deriveDemo decryptId decodeHi engDemoObs msgDemo
          peerFull true).2 = tr
        ∧ tr.getLast? = some (EngineEvent.sentAck msgDemo.id
            engDemoObs.wallet.address msgDemo.sender peerFull.id)
        ∧ (∀ i, i < engDemoObs.callbacks.length →
            EngineEvent.observerCalled i
                ⟨msgDemo.id, msgDemo.sender, msgDemo.metadata_name, "hi",
                  msgDemo.timestamp, true⟩ ∈ tr.dropLast) :=
  ack_after_observers deriveDemo decryptId decodeHi engDemoObs msgDemo peerFull true
    msgDemo.content "hi" (by decide) rfl

/-- C8: `get_shared_secret` returns nothing exactly when the peer has no
known encryption key; a cache hit returns the cached secret with the state
untouched (the derivation is not recomputed, whatever key the peer now
advertises); a cache miss with a known key derives once and caches. -/
theorem shared_secret_memoized {P S K E : Type} (derive : P → E → S)
    (eng : TransmissionEngine P S) (peer : Peer K E) :
    ((get_shared_secret derive eng peer).1 = none ↔ peer.encryption_key = none)
      ∧ (∀ s, peer.encryption_key ≠ none →
          eng.shared_secrets.lookup peer.id = some s →
          get_shared_secret derive eng peer = (some s, eng))
      ∧ (∀ k, peer.encryption_key = some k →
          eng.shared_secrets.lookup peer.id = none →
          get_shared_secret derive eng peer
            = (some (derive eng.wallet.encPriv k),
                { eng with shared_secrets :=
                    (peer.id, derive eng.wallet.encPriv k) :: eng.shared_secrets })) := by
  refine ⟨?_, ?_, ?_⟩
  · unfold get_shared_secret
    cases peer.encryption_key with
    | none => simp
    | some k =>
      cases eng.shared_secrets.lookup peer.id with
      | none => simp
      | some s => simp
  · intro s hk hl
    unfold get_shared_secret
    cases hk2 : peer.encryption_key with
    | none => exact absurd hk2 hk
    | some k => rw [hl]
  · intro k hk hl
    unfold get_shared_secret
    rw [hk, hl]

/-- C8 witness: with the secret for `peer-1` already cached, the call
returns the cached bytes and leaves the engine unchanged. -/
theorem shared_secret_memoized_witness :
    get_shared_secret deriveDemo engDemoCached peerFull = (some 5, engDemoCached) :=
  (shared_secret_memoized deriveDemo engDemoCached peerFull).2.1 5 (by decide) (by decide)

end BMP
